import Mathlib

set_option maxHeartbeats 1000000

/-!
Shallow embedding of `src/src/dsp/cost_sse2.c` (SSE2 residual-cost functions):
`SetResidualCoeffsSSE2` (lines 25-46) and `GetResidualCostSSE2` (lines 48-108),
modelled lane-exactly.  The probability table, cost table, band table,
fixed level-cost table and `VP8BitCost` are inputs of the two functions
(the first two are fields of `VP8Residual` in the source; the last three are
process-wide constants declared in headers that are not part of this tree,
so they are carried abstractly in a `CostEnv` record).
-/

/-- Wrap an integer to a signed 16-bit lane value, as SSE2 16-bit lane
arithmetic (`_mm_sub_epi16`) does. -/
def toInt16 (x : Int) : Int := (x + 32768) % 65536 - 32768

/-- Signed saturating 16-bit to 8-bit pack of one lane (`_mm_packs_epi16`,
line 76): clamp into the signed byte range. -/
def packs16to8 (x : Int) : Int := max (-128) (min 127 x)

/-- Read a signed byte as the unsigned value `_mm_min_epu8` compares. -/
def epu8 (x : Int) : Nat := (x % 256).toNat

/-- One 16-bit lane of E0/E1 (lines 70-75): abs(v) computed as
`max(v,0) - min(v,0)` with wrapping 16-bit subtraction. -/
def absLane16 (c : Int) : Int := toInt16 (max c 0 - min c 0)

/-- One lane of `abs_levels` (lines 83-84): the E lane stored as `uint16_t`
and later read back as a non-negative int (`flevel`, lines 89/97). -/
def absLane (c : Int) : Nat := (absLane16 c % 65536).toNat

/-- One byte of F (line 76): the packed-to-8-bit absolute value, as the
unsigned byte value seen by `_mm_min_epu8`. -/
def byteLane (c : Int) : Nat := epu8 (packs16to8 (absLane16 c))

/-- One byte of G (line 77): context bucket `min(abs, 2)` after packing. -/
def ctxLane (c : Int) : Nat := min (byteLane c) 2

/-- One byte of H (line 78): clamped level `min(abs, 67)` after packing
(`MAX_VARIABLE_LEVEL` = 67). -/
def levelLane (c : Int) : Nat := min (byteLane c) 67

/-- The `VP8Residual` record as used by `cost_sse2.c`: scan range `first`
and `last`, the 16 coefficients, and the per-residual probability and cost
tables (`res->prob[b][ctx][i]` and `res->cost[b][ctx][level]`). -/
structure VP8Residual where
  first : Nat
  last : Int
  coeffs : Fin 16 → Int
  prob : Nat → Nat → Nat → Nat
  cost : Nat → Nat → Nat → Nat

/-- The process-wide constants consumed by `GetResidualCostSSE2` but defined
outside this tree: the band table `VP8EncBands`, the fixed level-cost table
`VP8LevelFixedCosts`, and the bit-cost primitive `VP8BitCost(bit, proba)`. -/
structure CostEnv where
  VP8EncBands : Nat → Nat
  VP8LevelFixedCosts : Nat → Nat
  VP8BitCost : Nat → Nat → Nat

/-- Read coefficient lane `n` of a 16-element coefficient array; positions
past the array (never accessed by the source on well-formed inputs) read 0. -/
def lane (coeffs : Fin 16 → Int) (n : Nat) : Int :=
  if h : n < 16 then coeffs ⟨n, h⟩ else 0

/-- Coefficient at position `n` of a residual (`res->coeffs[n]`). -/
def coeffAt (res : VP8Residual) (n : Nat) : Int := lane res.coeffs n

/-- The loop of `GetResidualCostSSE2` (lines 86-93) together with its tail
block (lines 95-106), with the remaining iteration count made explicit:
`costTail env res fuel n t` is the cost accumulated from position `n` with
current cost-table row `t` when `n + fuel` is the last position.  Each
iteration adds `VP8LevelFixedCosts[flevel] + t[level]` and advances `t` to
`res->cost[VP8EncBands[n+1]][ctx]`; the final position adds its level cost
and, when `last < 15`, the end-of-block bit
`VP8BitCost(0, res->prob[VP8EncBands[n+1]][ctx][0])` (lines 100-105). -/
def costTail (env : CostEnv) (res : VP8Residual) :
    Nat → Nat → (Nat → Nat) → Nat
  | 0, n, t =>
      env.VP8LevelFixedCosts (absLane (coeffAt res n)) +
        t (levelLane (coeffAt res n)) +
        (if n < 15 then
          env.VP8BitCost 0
            (res.prob (env.VP8EncBands (n + 1)) (ctxLane (coeffAt res n)) 0)
        else 0)
  | fuel + 1, n, t =>
      env.VP8LevelFixedCosts (absLane (coeffAt res n)) +
        t (levelLane (coeffAt res n)) +
        costTail env res fuel (n + 1)
          (res.cost (env.VP8EncBands (n + 1)) (ctxLane (coeffAt res n)))

/-- `GetResidualCostSSE2` (lines 48-108).  `p0 = res->prob[n][ctx0][0]` and
the initial row `t = res->cost[n][ctx0]` are indexed by the position
`n = res->first` itself (lines 52-54); the base cost `VP8BitCost(1, p0)` is
added only for `ctx0 == 0` (line 58); an empty residual returns
`VP8BitCost(0, p0)` directly (lines 60-62). -/
def GetResidualCostSSE2 (env : CostEnv) (ctx0 : Nat) (res : VP8Residual) :
    Nat :=
  if res.last < 0 then env.VP8BitCost 0 (res.prob res.first ctx0 0)
  else
    (if ctx0 = 0 then env.VP8BitCost 1 (res.prob res.first ctx0 0) else 0) +
      costTail env res (res.last.toNat - res.first) res.first
        (res.cost res.first ctx0)

/-- Accumulate the `_mm_movemask_epi8` bits of the two zero-compare masks
(lines 30-39): lane `i` of `_mm_cmpeq_epi16` is all-ones exactly when
`coeffs[i] = 0`, contributing the two bits `2i` and `2i+1` (value `3 * 4^i`)
of the concatenated 32-bit mask. -/
def zeroMaskAux (coeffs : Fin 16 → Int) : Nat → Nat
  | 0 => 0
  | n + 1 =>
      zeroMaskAux coeffs n + (if lane coeffs n = 0 then 3 * 4 ^ n else 0)

/-- The concatenated movemask of the equality comparisons (lines 31-39
before negation). -/
def zeroMask (coeffs : Fin 16 → Int) : Nat := zeroMaskAux coeffs 16

/-- The 32-bit mask of line 38-39: bitwise NOT of `zeroMask` within 32 bits,
i.e. `2^32 - 1 - zeroMask`. -/
def residualMask (coeffs : Fin 16 → Int) : Nat := 2 ^ 32 - 1 - zeroMask coeffs

/-- `BitsLog2Floor`: position of the most significant set bit. -/
def BitsLog2Floor (n : Nat) : Nat := Nat.log2 n

/-- The `last` value computed by `SetResidualCoeffsSSE2` (line 44):
`mask ? BitsLog2Floor(mask) >> 1 : -1`. -/
def setResidualLast (coeffs : Fin 16 → Int) : Int :=
  if residualMask coeffs ≠ 0 then
    ((BitsLog2Floor (residualMask coeffs)) >>> 1 : Nat)
  else -1

/-- `SetResidualCoeffsSSE2` (lines 25-46): stores the computed `last` and
the coefficient pointer into the residual (lines 44-45); no other field of
the record is written. -/
def SetResidualCoeffsSSE2 (coeffs : Fin 16 → Int) (res : VP8Residual) :
    VP8Residual :=
  { res with last := setResidualLast coeffs, coeffs := coeffs }

/-- Modelled from the spec: the scalar Scan Detector of section 4.1 (the
portable `SetResidualCoeffs` path, which is not part of this tree): a
reverse linear scan from position 15 stopping at the first nonzero
coefficient, returning -1 when all are zero. -/
def detectLastAux (coeffs : Fin 16 → Int) : Nat → Int
  | 0 => -1
  | n + 1 => if lane coeffs n ≠ 0 then (n : Int) else detectLastAux coeffs n

/-- Modelled from the spec: scalar Scan Detector over all 16 positions. -/
def detectLastScalar (coeffs : Fin 16 → Int) : Int := detectLastAux coeffs 16

/-- The per-position sum the claims and spec steps 4-6 describe: from
position `n` (with `n + fuel` the last position) add
`levelFixedCost[|coeffs[n]|] + t[min(|coeffs[n]|, 67)]` and advance `t` to
`cost[band(n+1)][min(|coeffs[n]|, 2)]`, with no end-of-block term. -/
def specLevelSum (env : CostEnv) (res : VP8Residual) :
    Nat → Nat → (Nat → Nat) → Nat
  | 0, n, t =>
      env.VP8LevelFixedCosts (coeffAt res n).natAbs +
        t (min (coeffAt res n).natAbs 67)
  | fuel + 1, n, t =>
      env.VP8LevelFixedCosts (coeffAt res n).natAbs +
        t (min (coeffAt res n).natAbs 67) +
        specLevelSum env res fuel (n + 1)
          (res.cost (env.VP8EncBands (n + 1)) (min (coeffAt res n).natAbs 2))

/-- The total cost claim C1 describes for a nonempty residual: the step-2
base cost (at the probability row of `band(first)`) plus the level sums of
steps 4-6 starting from the cost row of `band(first)`, with no end-of-block
term. -/
def specCostC1 (env : CostEnv) (ctx0 : Nat) (res : VP8Residual) : Nat :=
  (if ctx0 = 0 then
    env.VP8BitCost 1 (res.prob (env.VP8EncBands res.first) ctx0 0)
  else 0) +
    specLevelSum env res (res.last.toNat - res.first) res.first
      (res.cost (env.VP8EncBands res.first) ctx0)

/-- Replace the coefficient at position `k` of a residual, leaving every
other coefficient, the scan range and the tables unchanged (claim C8's
"all else held fixed" block transformation). -/
def updateCoeff (res : VP8Residual) (k : Nat) (v : Int) : VP8Residual :=
  { res with coeffs := fun i => if (i : Nat) = k then v else res.coeffs i }

/-- Concrete environment for witnesses: identity band table, identity fixed
level-cost table, bit cost equal to the probability argument plus the bit.
All of its tables are monotone. -/
def wEnv : CostEnv where
  VP8EncBands := fun n => n
  VP8LevelFixedCosts := fun n => n
  VP8BitCost := fun b p => b + p

/-- Concrete nonempty residual for witnesses: single nonzero coefficient 3
at position 0. -/
def wRes : VP8Residual where
  first := 0
  last := 0
  coeffs := fun i => if (i : Nat) = 0 then 3 else 0
  prob := fun _ c _ => c + 1
  cost := fun _ c l => c + l

/-- Concrete empty residual for witnesses. -/
def wResEmpty : VP8Residual where
  first := 0
  last := -1
  coeffs := fun _ => 0
  prob := fun _ c _ => c + 1
  cost := fun _ c l => c + l

/-- Concrete residual with context-independent cost rows (used where the
two starting rows must agree). -/
def wRes7 : VP8Residual where
  first := 0
  last := 0
  coeffs := fun i => if (i : Nat) = 0 then 1 else 0
  prob := fun _ _ _ => 5
  cost := fun _ _ l => l

/-- Concrete environment for counterexamples: a band table in which several
positions share a band (as the spec requires of band tables) and which is
the identity on positions 0..3 only, a zero fixed level-cost table, and bit
cost equal to the probability argument. -/
def cexEnv : CostEnv where
  VP8EncBands := fun n => if n ≤ 3 then n else if n = 15 then 7 else 6
  VP8LevelFixedCosts := fun _ => 0
  VP8BitCost := fun _ p => p

/-- Counterexample residual for C1: one nonzero coefficient at position 0,
so the block ends before position 15 and the end-of-block bit is paid. -/
def cexRes1 : VP8Residual where
  first := 0
  last := 0
  coeffs := fun i => if (i : Nat) = 0 then 1 else 0
  prob := fun _ _ _ => 7
  cost := fun _ _ _ => 0

/-- Counterexample residual for C3: empty block whose first position is 4,
where the band table is not the identity. -/
def cexRes3 : VP8Residual where
  first := 4
  last := -1
  coeffs := fun _ => 0
  prob := fun b _ _ => if b = 4 then 10 else 20
  cost := fun _ _ _ => 0

/-- Counterexample residual for C4: nonempty block with first = 4. -/
def cexRes4 : VP8Residual where
  first := 4
  last := 4
  coeffs := fun i => if (i : Nat) = 4 then 1 else 0
  prob := fun b _ _ => if b = 4 then 10 else 20
  cost := fun _ _ _ => 0

/-- Counterexample residual for C6: empty block with first = 5. -/
def cexRes6 : VP8Residual where
  first := 5
  last := -1
  coeffs := fun _ => 0
  prob := fun b _ _ => if b = 5 then 11 else 22
  cost := fun _ _ _ => 0

/-- Counterexample residual for C7: the cost row for context 0 differs from
the rows for the nonzero contexts, as the spec says it does by
construction. -/
def cexRes7 : VP8Residual where
  first := 0
  last := 0
  coeffs := fun i => if (i : Nat) = 0 then 1 else 0
  prob := fun _ _ _ => 5
  cost := fun _ c _ => if c = 0 then 100 else 0

/-- Counterexample residual for C8, small magnitude: coefficient 1 at
position 0 under a cost row that charges level 1 more than level 2. -/
def cexRes8a : VP8Residual where
  first := 0
  last := 0
  coeffs := fun i => if (i : Nat) = 0 then 1 else 0
  prob := fun _ _ _ => 0
  cost := fun _ _ l => if l = 1 then 10 else 0

/-- Counterexample residual for C8, larger magnitude: same block with the
coefficient at position 0 raised to 2. -/
def cexRes8b : VP8Residual where
  first := 0
  last := 0
  coeffs := fun i => if (i : Nat) = 0 then 2 else 0
  prob := fun _ _ _ => 0
  cost := fun _ _ l => if l = 1 then 10 else 0

/-- The complement view of `zeroMaskAux`: the bits of the negated mask,
with `3 * 4 ^ i` contributed by every nonzero lane `i` below `n`. -/
def nonzeroMaskAux (coeffs : Fin 16 → Int) : Nat → Nat
  | 0 => 0
  | n + 1 =>
      nonzeroMaskAux coeffs n + (if lane coeffs n ≠ 0 then 3 * 4 ^ n else 0)

/-! Lane-exactness lemmas: on the signed 16-bit range excluding -32768 the
SIMD pipeline computes the true absolute value, context and clamped level. -/

theorem absLane16_eq (c : Int) (h1 : -32767 ≤ c) (h2 : c ≤ 32767) :
    absLane16 c = (c.natAbs : Int) := by
  unfold absLane16 toInt16
  rcases le_total 0 c with h | h
  · rw [max_eq_left h, min_eq_right h]
    omega
  · rw [max_eq_right h, min_eq_left h]
    omega

theorem absLane_eq (c : Int) (h1 : -32767 ≤ c) (h2 : c ≤ 32767) :
    absLane c = c.natAbs := by
  unfold absLane
  rw [absLane16_eq c h1 h2]
  omega

theorem byteLane_eq (c : Int) (h1 : -32767 ≤ c) (h2 : c ≤ 32767) :
    byteLane c = min c.natAbs 127 := by
  unfold byteLane epu8 packs16to8
  rw [absLane16_eq c h1 h2]
  omega

theorem ctxLane_eq (c : Int) (h1 : -32767 ≤ c) (h2 : c ≤ 32767) :
    ctxLane c = min c.natAbs 2 := by
  unfold ctxLane
  rw [byteLane_eq c h1 h2]
  omega

theorem levelLane_eq (c : Int) (h1 : -32767 ≤ c) (h2 : c ≤ 32767) :
    levelLane c = min c.natAbs 67 := by
  unfold levelLane
  rw [byteLane_eq c h1 h2]
  omega

/-- C9: for every signed 16-bit coefficient value c in [-32767, 32767], the
SIMD precomputation in GetResidualCostSSE2 stores exactly abs(c) into
abs_levels, min(abs(c), 2) into ctxs and min(abs(c), 67) into levels: the
abs-via-max-minus-min trick is exact on this range, and the signed
saturating 16-to-8-bit pack (clamping bytes at 127) never changes the
results of the subsequent minima with 2 and with 67. -/
theorem claim_C9 (c : Int) (h1 : -32767 ≤ c) (h2 : c ≤ 32767) :
    absLane c = c.natAbs ∧ ctxLane c = min c.natAbs 2 ∧
      levelLane c = min c.natAbs 67 :=
  ⟨absLane_eq c h1 h2, ctxLane_eq c h1 h2, levelLane_eq c h1 h2⟩

/-- Witness for C9 at the concrete coefficient -300. -/
theorem claim_C9_witness :
    absLane (-300) = (-300 : Int).natAbs ∧
      ctxLane (-300) = min (-300 : Int).natAbs 2 ∧
      levelLane (-300) = min (-300 : Int).natAbs 67 :=
  claim_C9 (-300) (by decide) (by decide)

/-! Scan-detector lemmas (claim C2). -/

theorem lane_coe (coeffs : Fin 16 → Int) (i : Fin 16) :
    lane coeffs (i : Nat) = coeffs i := by
  unfold lane
  rw [dif_pos i.isLt, Fin.eta]

theorem mask_split (coeffs : Fin 16 → Int) (n : Nat) :
    zeroMaskAux coeffs n + nonzeroMaskAux coeffs n = 4 ^ n - 1 := by
  induction n with
  | zero => rfl
  | succ n ih =>
    have h4 : (4 : Nat) ^ (n + 1) = 4 * 4 ^ n := by ring
    have h1 : 1 ≤ (4 : Nat) ^ n := Nat.one_le_pow n 4 (by norm_num)
    by_cases hc : lane coeffs n = 0 <;>
      simp [zeroMaskAux, nonzeroMaskAux, hc] <;> omega

theorem nonzeroMaskAux_lt (coeffs : Fin 16 → Int) (n : Nat) :
    nonzeroMaskAux coeffs n < 4 ^ n := by
  have h := mask_split coeffs n
  have h1 : 1 ≤ (4 : Nat) ^ n := Nat.one_le_pow n 4 (by norm_num)
  omega

theorem residualMask_eq (coeffs : Fin 16 → Int) :
    residualMask coeffs = nonzeroMaskAux coeffs 16 := by
  have h := mask_split coeffs 16
  have h2 : (4 : Nat) ^ 16 = 2 ^ 32 := by norm_num
  unfold residualMask zeroMask
  omega

theorem detect_mask (coeffs : Fin 16 → Int) (n : Nat) :
    (detectLastAux coeffs n = -1 ∧ nonzeroMaskAux coeffs n = 0 ∧
        ∀ j, j < n → lane coeffs j = 0) ∨
      ∃ m : Nat, m < n ∧ detectLastAux coeffs n = (m : Int) ∧
        lane coeffs m ≠ 0 ∧ (∀ j, m < j → j < n → lane coeffs j = 0) ∧
        3 * 4 ^ m ≤ nonzeroMaskAux coeffs n ∧
        nonzeroMaskAux coeffs n < 4 ^ (m + 1) := by
  induction n with
  | zero => exact Or.inl ⟨rfl, rfl, fun j hj => absurd hj (by omega)⟩
  | succ n ih =>
    by_cases hc : lane coeffs n = 0
    · have hmask : nonzeroMaskAux coeffs (n + 1) = nonzeroMaskAux coeffs n :=
        by simp [nonzeroMaskAux, hc]
      have hdet : detectLastAux coeffs (n + 1) = detectLastAux coeffs n := by
        simp [detectLastAux, hc]
      rcases ih with ⟨h1, h2, h3⟩ | ⟨m, hm, h1, h2, h3, h4, h5⟩
      · refine Or.inl ⟨hdet.trans h1, hmask.trans h2, fun j hj => ?_⟩
        rcases Nat.lt_succ_iff_lt_or_eq.mp hj with h | h
        · exact h3 j h
        · rw [h]; exact hc
      · refine Or.inr ⟨m, by omega, hdet.trans h1, h2, fun j hj1 hj2 => ?_,
          by omega, by omega⟩
        rcases Nat.lt_succ_iff_lt_or_eq.mp hj2 with h | h
        · exact h3 j hj1 h
        · rw [h]; exact hc
    · have hmask : nonzeroMaskAux coeffs (n + 1) =
          nonzeroMaskAux coeffs n + 3 * 4 ^ n := by
        simp [nonzeroMaskAux, hc]
      have hdet : detectLastAux coeffs (n + 1) = (n : Int) := by
        simp [detectLastAux, hc]
      have hlt := nonzeroMaskAux_lt coeffs n
      have h4 : (4 : Nat) ^ (n + 1) = 4 * 4 ^ n := by ring
      refine Or.inr ⟨n, by omega, hdet, hc,
        fun j hj1 hj2 => absurd hj1 (by omega), by omega, by omega⟩

theorem log2_double_bound {m x : Nat} (h1 : 3 * 4 ^ m ≤ x)
    (h2 : x < 4 ^ (m + 1)) : Nat.log2 x = 2 * m + 1 := by
  rw [Nat.log2_eq_log_two]
  apply Nat.log_eq_of_pow_le_of_lt_pow
  · have e1 : (2 : Nat) ^ (2 * m + 1) = 2 * 4 ^ m := by
      rw [pow_succ, pow_mul]; norm_num; ring
    have h0 : 0 < (4 : Nat) ^ m := Nat.pos_pow_of_pos m (by norm_num)
    omega
  · have e2 : (2 : Nat) ^ (2 * m + 1 + 1) = 4 * 4 ^ m := by
      have : 2 * m + 1 + 1 = 2 * (m + 1) := by ring
      rw [this, pow_mul]; norm_num; ring
    have h3 : (4 : Nat) ^ (m + 1) = 4 * 4 ^ m := by ring
    omega

/-- C2: for every 16-element coefficient array, SetResidualCoeffsSSE2 sets
last to the greatest index holding a nonzero coefficient, to -1 when all
sixteen are zero, and agrees with the scalar reverse linear scan on every
input (so in particular on all-zero input and on input whose only nonzero
is at position 0). -/
theorem claim_C2 (coeffs : Fin 16 → Int) :
    setResidualLast coeffs = detectLastScalar coeffs ∧
      ((∀ i : Fin 16, coeffs i = 0) → setResidualLast coeffs = -1) ∧
      ∀ i : Fin 16, coeffs i ≠ 0 →
        ∃ m : Fin 16, setResidualLast coeffs = ((m : Nat) : Int) ∧
          coeffs m ≠ 0 ∧ (i : Nat) ≤ (m : Nat) ∧
          ∀ j : Fin 16, (m : Nat) < (j : Nat) → coeffs j = 0 := by
  have hres := residualMask_eq coeffs
  rcases detect_mask coeffs 16 with ⟨h1, h2, h3⟩ | ⟨m, hm, h1, h2, h3, h4, h5⟩
  · have hzero : residualMask coeffs = 0 := by rw [hres, h2]
    have hlast : setResidualLast coeffs = -1 := by
      simp [setResidualLast, hzero]
    refine ⟨?_, fun _ => hlast, ?_⟩
    · rw [hlast, detectLastScalar, h1]
    · intro i hi
      exact absurd ((lane_coe coeffs i).symm.trans (h3 (i : Nat) i.isLt)) hi
  · have h0 : 0 < (4 : Nat) ^ m := Nat.pos_pow_of_pos m (by norm_num)
    have hne : residualMask coeffs ≠ 0 := by rw [hres]; omega
    have hlog : Nat.log2 (residualMask coeffs) = 2 * m + 1 := by
      rw [hres]; exact log2_double_bound h4 h5
    have hlast : setResidualLast coeffs = (m : Int) := by
      simp [setResidualLast, hne, BitsLog2Floor, hlog,
        Nat.shiftRight_eq_div_pow]
      omega
    have hfin : ((⟨m, hm⟩ : Fin 16) : Nat) = m := rfl
    refine ⟨?_, ?_, ?_⟩
    · rw [hlast, detectLastScalar, h1]
    · intro hall
      exact absurd ((lane_coe coeffs ⟨m, hm⟩).trans (hall ⟨m, hm⟩)) h2
    · intro i hi
      refine ⟨⟨m, hm⟩, hlast, ?_, ?_, ?_⟩
      · exact fun h => h2 (((lane_coe coeffs ⟨m, hm⟩).trans h))
      · by_contra hgt
        exact hi ((lane_coe coeffs i).symm.trans
          (h3 (i : Nat) (by omega) i.isLt))
      · intro j hj
        exact (lane_coe coeffs j).symm.trans (h3 (j : Nat) hj j.isLt)

/-- Witness for C2: instantiation at the array whose only nonzero entry is
at position 0. -/
theorem claim_C2_witness :
    setResidualLast (fun i => if (i : Nat) = 0 then 3 else 0) =
      detectLastScalar (fun i => if (i : Nat) = 0 then 3 else 0) :=
  (claim_C2 (fun i => if (i : Nat) = 0 then 3 else 0)).1

/-! Decomposition lemmas for the cost loop. -/

theorem coeffAt_range (res : VP8Residual)
    (hrange : ∀ i : Fin 16, -32767 ≤ res.coeffs i ∧ res.coeffs i ≤ 32767)
    (n : Nat) (hn : n < 16) :
    -32767 ≤ coeffAt res n ∧ coeffAt res n ≤ 32767 := by
  unfold coeffAt lane
  rw [dif_pos hn]
  exact hrange ⟨n, hn⟩

theorem costTail_head (env : CostEnv) (res : VP8Residual) (fuel n : Nat)
    (t : Nat → Nat) :
    costTail env res fuel n t =
      t (levelLane (coeffAt res n)) + costTail env res fuel n (fun _ => 0) :=
  by cases fuel <;> simp [costTail] <;> omega

theorem costTail_t_mono (env : CostEnv) (res : VP8Residual) (fuel n : Nat)
    (t1 t2 : Nat → Nat) (h : ∀ l, t1 l ≤ t2 l) :
    costTail env res fuel n t1 ≤ costTail env res fuel n t2 := by
  rw [costTail_head env res fuel n t1, costTail_head env res fuel n t2]
  exact Nat.add_le_add_right (h _) _

theorem costTail_eq_spec (env : CostEnv) (res : VP8Residual)
    (hrange : ∀ i : Fin 16, -32767 ≤ res.coeffs i ∧ res.coeffs i ≤ 32767) :
    ∀ fuel n, n + fuel ≤ 15 → ∀ t : Nat → Nat,
      costTail env res fuel n t =
        specLevelSum env res fuel n t +
          (if n + fuel < 15 then
            env.VP8BitCost 0
              (res.prob (env.VP8EncBands (n + fuel + 1))
                (min (coeffAt res (n + fuel)).natAbs 2) 0)
          else 0) := by
  intro fuel
  induction fuel with
  | zero =>
    intro n hn t
    obtain ⟨hr1, hr2⟩ := coeffAt_range res hrange n (by omega)
    simp only [costTail, specLevelSum, Nat.add_zero,
      absLane_eq _ hr1 hr2, levelLane_eq _ hr1 hr2, ctxLane_eq _ hr1 hr2]
  | succ fuel ih =>
    intro n hn t
    obtain ⟨hr1, hr2⟩ := coeffAt_range res hrange n (by omega)
    have e : n + (fuel + 1) = n + 1 + fuel := by ring
    simp only [costTail, specLevelSum,
      absLane_eq _ hr1 hr2, levelLane_eq _ hr1 hr2, ctxLane_eq _ hr1 hr2]
    rw [ih (n + 1) (by omega)]
    rw [e]
    ring

/-! Claims C3, C4, C6, C7 concern the probability and cost rows selected at
position `first`.  The source (lines 52-54) indexes them by the position
itself, `res->prob[n][ctx0][0]` and `res->cost[n][ctx0]` with `n = first`,
with the comment that this "should be prob[VP8EncBands[n]], but it's
equivalent for n=0 or 1"; the claims state the band-indexed form. -/

/-- C3 as stated is false: for an empty residual with first = 4 and a band
table that maps 4 to 6, the returned cost is computed from prob[4][ctx0],
not from prob[band(4)][ctx0]. -/
theorem claim_C3_cex :
    GetResidualCostSSE2 cexEnv 0 cexRes3 ≠
      cexEnv.VP8BitCost 0
        (cexRes3.prob (cexEnv.VP8EncBands cexRes3.first) 0 0) := by decide

/-- C3 amended: for every residual with last < 0 and every ctx0, the cost
operation returns exactly the bit-cost of signaling "no nonzero
coefficient" computed from prob[first][ctx0] - the row indexed by the
position first itself, which coincides with band(first) for first in
{0, 1} - and the ctx0 = 0 base cost of step 2 is not included. -/
theorem claim_C3_amended (env : CostEnv) (ctx0 : Nat) (res : VP8Residual)
    (h : res.last < 0) :
    GetResidualCostSSE2 env ctx0 res =
      env.VP8BitCost 0 (res.prob res.first ctx0 0) := by
  simp [GetResidualCostSSE2, h]

/-- Witness for the amended C3 at a concrete empty residual. -/
theorem claim_C3_witness :
    GetResidualCostSSE2 wEnv 1 wResEmpty =
      wEnv.VP8BitCost 0 (wResEmpty.prob wResEmpty.first 1 0) :=
  claim_C3_amended wEnv 1 wResEmpty (by decide)

/-- C4 as stated is false: for a residual with first = 4, last = 4 and a
band table mapping 4 to 6, the base term added for ctx0 = 0 is
VP8BitCost(1, prob[4][0][0]), not VP8BitCost(1, prob[band(4)][0][0]). -/
theorem claim_C4_cex :
    GetResidualCostSSE2 cexEnv 0 cexRes4 ≠
      cexEnv.VP8BitCost 1
          (cexRes4.prob (cexEnv.VP8EncBands cexRes4.first) 0 0) +
        costTail cexEnv cexRes4 (cexRes4.last.toNat - cexRes4.first)
          cexRes4.first (cexRes4.cost cexRes4.first 0) := by decide

/-- C4 amended: for every residual with last >= 0, the cost operation's
result is the sum of a base term and the loop cost, and the base term is
VP8BitCost(1, prob[first][0][0]) - indexed by the position first, which
coincides with band(first) for first in {0, 1} - exactly when ctx0 = 0 and
zero otherwise. -/
theorem claim_C4_amended (env : CostEnv) (ctx0 : Nat) (res : VP8Residual)
    (h : 0 ≤ res.last) :
    GetResidualCostSSE2 env ctx0 res =
      (if ctx0 = 0 then env.VP8BitCost 1 (res.prob res.first ctx0 0)
       else 0) +
        costTail env res (res.last.toNat - res.first) res.first
          (res.cost res.first ctx0) := by
  rw [GetResidualCostSSE2, if_neg (by omega)]

/-- Witness for the amended C4 at a concrete nonempty residual with
ctx0 = 0 and with ctx0 = 2. -/
theorem claim_C4_witness :
    GetResidualCostSSE2 wEnv 0 wRes =
        wEnv.VP8BitCost 1 (wRes.prob wRes.first 0 0) +
          costTail wEnv wRes (wRes.last.toNat - wRes.first) wRes.first
            (wRes.cost wRes.first 0) ∧
      GetResidualCostSSE2 wEnv 2 wRes =
        0 +
          costTail wEnv wRes (wRes.last.toNat - wRes.first) wRes.first
            (wRes.cost wRes.first 2) :=
  ⟨claim_C4_amended wEnv 0 wRes (by decide),
    claim_C4_amended wEnv 2 wRes (by decide)⟩

/-- C6 as stated is false: for an empty residual with first = 5 and a band
table mapping 5 to 6, the probability entry used is prob[5][ctx0], selected
by the position itself, not prob[band(5)][ctx0]. -/
theorem claim_C6_cex :
    GetResidualCostSSE2 cexEnv 2 cexRes6 ≠
      cexEnv.VP8BitCost 0
        (cexRes6.prob (cexEnv.VP8EncBands cexRes6.first) 2 0) := by decide

/-- C6 amended: for every residual, the probability entry used both for the
step-2 base cost and for the step-3 empty-block cost is prob[first][ctx0]:
the row is selected by the position first itself, which coincides with the
band of first for first in {0, 1} (the source comment's justification), not
by band(first) in general. -/
theorem claim_C6_amended (env : CostEnv) (ctx0 : Nat) (res : VP8Residual) :
    (res.last < 0 →
      GetResidualCostSSE2 env ctx0 res =
        env.VP8BitCost 0 (res.prob res.first ctx0 0)) ∧
      (0 ≤ res.last →
        GetResidualCostSSE2 env ctx0 res =
          (if ctx0 = 0 then env.VP8BitCost 1 (res.prob res.first ctx0 0)
           else 0) +
            costTail env res (res.last.toNat - res.first) res.first
              (res.cost res.first ctx0)) := by
  constructor
  · intro h
    simp [GetResidualCostSSE2, h]
  · intro h
    rw [GetResidualCostSSE2, if_neg (by omega)]

/-- Witness for the amended C6: the base-cost branch at a concrete
nonempty residual. -/
theorem claim_C6_witness :
    GetResidualCostSSE2 wEnv 0 wRes =
      (if (0 : Nat) = 0 then wEnv.VP8BitCost 1 (wRes.prob wRes.first 0 0)
       else 0) +
        costTail wEnv wRes (wRes.last.toNat - wRes.first) wRes.first
          (wRes.cost wRes.first 0) :=
  (claim_C6_amended wEnv 0 wRes).2 (by decide)

/-- C1 as stated is false: for a block ending before position 15 the
returned value also contains the end-of-block bit-cost of step 7, which the
claimed sum omits.  Concretely, with a block whose only nonzero coefficient
is at position 0 the code returns the claimed sum plus
VP8BitCost(0, prob[band(1)][min(abs(coeffs[0]), 2)][0]) > 0. -/
theorem claim_C1_cex :
    GetResidualCostSSE2 cexEnv 0 cexRes1 ≠ specCostC1 cexEnv 0 cexRes1 := by
  decide

/-- C1 amended: for every well-formed coefficient block with last >= 0 the
cost operation returns the base cost of step 2 plus, for each position n
from first to last - 1, levelFixedCost[abs(coeffs[n])] +
t[min(abs(coeffs[n]), 67)] with t then advanced to the cost-table row
cost[band(n+1)][min(abs(coeffs[n]), 2)], plus levelFixedCost[abs(coeffs[last])]
+ t[min(abs(coeffs[last]), 67)] at n = last, PLUS, when last < 15, the
end-of-block bit-cost VP8BitCost(0, prob[band(last+1)][min(abs(coeffs[last]), 2)][0])
of step 7; the base cost and the initial row t are the ones the code
indexes by the position first (assumed here to satisfy band(first) = first,
as holds for first in {0, 1}).  Each position's context and clamped level
are derived solely from that position's own coefficient. -/
theorem claim_C1_amended (env : CostEnv) (ctx0 : Nat) (res : VP8Residual)
    (hrange : ∀ i : Fin 16, -32767 ≤ res.coeffs i ∧ res.coeffs i ≤ 32767)
    (h0 : 0 ≤ res.last) (h15 : res.last ≤ 15)
    (hf : res.first ≤ res.last.toNat)
    (hband : env.VP8EncBands res.first = res.first) :
    GetResidualCostSSE2 env ctx0 res =
      specCostC1 env ctx0 res +
        (if res.last < 15 then
          env.VP8BitCost 0
            (res.prob (env.VP8EncBands (res.last.toNat + 1))
              (min (coeffAt res res.last.toNat).natAbs 2) 0)
        else 0) := by
  rw [GetResidualCostSSE2, if_neg (by omega)]
  rw [costTail_eq_spec env res hrange (res.last.toNat - res.first) res.first
    (by omega)]
  unfold specCostC1
  rw [hband]
  have e : res.first + (res.last.toNat - res.first) = res.last.toNat := by
    omega
  rw [e]
  by_cases hlt : res.last < 15
  · rw [if_pos (by omega : res.last.toNat < 15), if_pos hlt]
    ring
  · rw [if_neg (by omega : ¬ res.last.toNat < 15), if_neg hlt]
    ring

/-- Witness for the amended C1 at a concrete block with one nonzero
coefficient at position 0. -/
theorem claim_C1_witness :
    GetResidualCostSSE2 wEnv 0 wRes =
      specCostC1 wEnv 0 wRes +
        (if wRes.last < 15 then
          wEnv.VP8BitCost 0
            (wRes.prob (wEnv.VP8EncBands (wRes.last.toNat + 1))
              (min (coeffAt wRes wRes.last.toNat).natAbs 2) 0)
        else 0) :=
  claim_C1_amended wEnv 0 wRes (by decide) (by decide) (by decide)
    (by decide) (by decide)

/-- C5: for every well-formed residual with 0 <= last <= 15, the cost
operation's result decomposes as a termination-free main part plus exactly
one terminating term, the bit-cost of signaling "no more coefficients"
computed from prob[band(last+1)][min(abs(coeffs[last]), 2)][0], added
exactly when last < 15 and absent when last = 15. -/
theorem claim_C5 (env : CostEnv) (ctx0 : Nat) (res : VP8Residual)
    (hrange : ∀ i : Fin 16, -32767 ≤ res.coeffs i ∧ res.coeffs i ≤ 32767)
    (h0 : 0 ≤ res.last) (h15 : res.last ≤ 15)
    (hf : res.first ≤ res.last.toNat) :
    GetResidualCostSSE2 env ctx0 res =
      ((if ctx0 = 0 then env.VP8BitCost 1 (res.prob res.first ctx0 0)
        else 0) +
        specLevelSum env res (res.last.toNat - res.first) res.first
          (res.cost res.first ctx0)) +
      (if res.last < 15 then
        env.VP8BitCost 0
          (res.prob (env.VP8EncBands (res.last.toNat + 1))
            (min (coeffAt res res.last.toNat).natAbs 2) 0)
      else 0) := by
  rw [GetResidualCostSSE2, if_neg (by omega)]
  rw [costTail_eq_spec env res hrange (res.last.toNat - res.first) res.first
    (by omega)]
  have e : res.first + (res.last.toNat - res.first) = res.last.toNat := by
    omega
  rw [e]
  by_cases hlt : res.last < 15
  · rw [if_pos (by omega : res.last.toNat < 15), if_pos hlt]
    ring
  · rw [if_neg (by omega : ¬ res.last.toNat < 15), if_neg hlt]
    ring

/-- Witness for C5 at a concrete block with one nonzero coefficient at
position 0 (last = 0 < 15, so the terminating term is present). -/
theorem claim_C5_witness :
    GetResidualCostSSE2 wEnv 0 wRes =
      ((if (0 : Nat) = 0 then wEnv.VP8BitCost 1 (wRes.prob wRes.first 0 0)
        else 0) +
        specLevelSum wEnv wRes (wRes.last.toNat - wRes.first) wRes.first
          (wRes.cost wRes.first 0)) +
      (if wRes.last < 15 then
        wEnv.VP8BitCost 0
          (wRes.prob (wEnv.VP8EncBands (wRes.last.toNat + 1))
            (min (coeffAt wRes wRes.last.toNat).natAbs 2) 0)
      else 0) :=
  claim_C5 wEnv 0 wRes (by decide) (by decide) (by decide) (by decide)

/-- C7 as stated is false: the initial cost-table row also depends on ctx0,
so when the rows cost[first][0] and cost[first][c] differ at the clamped
level of the coefficient at first, the difference between cost(ctx0 = 0)
and cost(ctx0 = c) is not the is-nonzero signaling bit cost alone. -/
theorem claim_C7_cex :
    GetResidualCostSSE2 cexEnv 0 cexRes7 ≠
      GetResidualCostSSE2 cexEnv 1 cexRes7 +
        cexEnv.VP8BitCost 1
          (cexRes7.prob (cexEnv.VP8EncBands cexRes7.first) 0 0) := by decide

/-- C7 amended: for every residual with last >= 0 and every nonzero context
c in {1, 2}, cost(ctx0 = 0) exceeds cost(ctx0 = c) by exactly the
is-nonzero signaling bit cost VP8BitCost(1, prob[first][0][0]) - the
probability row the code indexes by the position first - provided the
cost-table rows cost[first][0] and cost[first][c] agree at the clamped
level of the coefficient at first (in general the difference additionally
contains the difference of those two row entries). -/
theorem claim_C7_amended (env : CostEnv) (res : VP8Residual) (c : Nat)
    (hc : c = 1 ∨ c = 2) (hl : 0 ≤ res.last)
    (hrow : res.cost res.first 0 (levelLane (coeffAt res res.first)) =
      res.cost res.first c (levelLane (coeffAt res res.first))) :
    GetResidualCostSSE2 env 0 res =
      GetResidualCostSSE2 env c res +
        env.VP8BitCost 1 (res.prob res.first 0 0) := by
  rw [GetResidualCostSSE2, GetResidualCostSSE2]
  rw [if_neg (show ¬ res.last < 0 by omega)]
  rw [if_pos (rfl : (0 : Nat) = 0)]
  rw [if_neg (show ¬ res.last < 0 by omega)]
  rw [if_neg (show ¬ c = 0 by omega)]
  rw [costTail_head env res (res.last.toNat - res.first) res.first
    (res.cost res.first 0)]
  rw [costTail_head env res (res.last.toNat - res.first) res.first
    (res.cost res.first c)]
  rw [hrow]
  ring

/-- Witness for the amended C7 at a concrete residual whose cost rows do
not depend on the context. -/
theorem claim_C7_witness :
    GetResidualCostSSE2 wEnv 0 wRes7 =
      GetResidualCostSSE2 wEnv 1 wRes7 +
        wEnv.VP8BitCost 1 (wRes7.prob wRes7.first 0 0) :=
  claim_C7_amended wEnv wRes7 1 (Or.inl rfl) (by decide) rfl

/-! Claim C8: monotonicity of the cost in a single coefficient magnitude. -/

theorem coeffAt_update_ne (res : VP8Residual) (k : Nat) (v : Int) (m : Nat)
    (h : m ≠ k) : coeffAt (updateCoeff res k v) m = coeffAt res m := by
  unfold coeffAt updateCoeff lane
  by_cases hm : m < 16
  · rw [dif_pos hm, dif_pos hm]
    simp [h]
  · rw [dif_neg hm, dif_neg hm]

theorem coeffAt_update_self (res : VP8Residual) (k : Nat) (v : Int)
    (hk : k < 16) : coeffAt (updateCoeff res k v) k = v := by
  unfold coeffAt updateCoeff lane
  rw [dif_pos hk]
  simp

theorem coeffAt_oob (res : VP8Residual) (k : Nat) (hk : ¬ k < 16) :
    coeffAt res k = 0 := by
  unfold coeffAt lane
  rw [dif_neg hk]

theorem costTail_mono_coeff (env : CostEnv) (res1 res2 : VP8Residual)
    (k : Nat)
    (hcost : res1.cost = res2.cost) (hprob : res1.prob = res2.prob)
    (hcoeff : ∀ m, m ≠ k → coeffAt res1 m = coeffAt res2 m)
    (habs : absLane (coeffAt res1 k) ≤ absLane (coeffAt res2 k))
    (hlvl : levelLane (coeffAt res1 k) ≤ levelLane (coeffAt res2 k))
    (hctx : ctxLane (coeffAt res1 k) ≤ ctxLane (coeffAt res2 k))
    (hF : ∀ a b, a ≤ b →
      env.VP8LevelFixedCosts a ≤ env.VP8LevelFixedCosts b)
    (hrowlvl : ∀ b c l1 l2, l1 ≤ l2 → res1.cost b c l1 ≤ res1.cost b c l2)
    (hrowctx : ∀ b c1 c2 l, c1 ≤ c2 → res1.cost b c1 l ≤ res1.cost b c2 l)
    (hterm : ∀ b c1 c2, c1 ≤ c2 →
      env.VP8BitCost 0 (res1.prob b c1 0) ≤
        env.VP8BitCost 0 (res1.prob b c2 0)) :
    ∀ fuel n t, (∀ l1 l2, l1 ≤ l2 → t l1 ≤ t l2) →
      costTail env res1 fuel n t ≤ costTail env res2 fuel n t := by
  intro fuel
  induction fuel with
  | zero =>
    intro n t ht
    by_cases hnk : n = k
    · subst hnk
      simp only [costTail]
      have h1 := hF _ _ habs
      have h2 := ht _ _ hlvl
      have h3 : (if n < 15 then
            env.VP8BitCost 0
              (res1.prob (env.VP8EncBands (n + 1))
                (ctxLane (coeffAt res1 n)) 0)
          else 0) ≤
          (if n < 15 then
            env.VP8BitCost 0
              (res2.prob (env.VP8EncBands (n + 1))
                (ctxLane (coeffAt res2 n)) 0)
          else 0) := by
        rw [← hprob]
        by_cases h15 : n < 15
        · rw [if_pos h15, if_pos h15]
          exact hterm _ _ _ hctx
        · rw [if_neg h15, if_neg h15]
      omega
    · have he := hcoeff n hnk
      simp only [costTail, he, ← hprob]
      exact le_rfl
  | succ fuel ih =>
    intro n t ht
    by_cases hnk : n = k
    · subst hnk
      simp only [costTail]
      have h1 := hF _ _ habs
      have h2 := ht _ _ hlvl
      have step1 := ih (n + 1)
        (res1.cost (env.VP8EncBands (n + 1)) (ctxLane (coeffAt res1 n)))
        (fun l1 l2 h => hrowlvl _ _ _ _ h)
      have step2 : costTail env res2 fuel (n + 1)
            (res1.cost (env.VP8EncBands (n + 1))
              (ctxLane (coeffAt res1 n))) ≤
          costTail env res2 fuel (n + 1)
            (res2.cost (env.VP8EncBands (n + 1))
              (ctxLane (coeffAt res2 n))) := by
        rw [← hcost]
        exact costTail_t_mono env res2 fuel (n + 1) _ _
          (fun l => hrowctx _ _ _ l hctx)
      omega
    · have he := hcoeff n hnk
      simp only [costTail, he, ← hcost]
      exact Nat.add_le_add_left
        (ih (n + 1)
          (res1.cost (env.VP8EncBands (n + 1)) (ctxLane (coeffAt res2 n)))
          (fun l1 l2 h => hrowlvl _ _ _ _ h)) _

/-- C8 as stated is false: with a cost-table row that charges the clamped
level 1 more than the clamped level 2, raising the magnitude of the only
coefficient from 1 to 2 (all else, including the recomputed last, fixed)
strictly lowers the returned cost. -/
theorem claim_C8_cex :
    GetResidualCostSSE2 cexEnv 0 (updateCoeff cexRes8a 0 2) <
      GetResidualCostSSE2 cexEnv 0 cexRes8a := by decide

/-- C8 amended: for every coefficient block, ctx0, position k and signed
16-bit magnitudes m1 <= m2, the cost with the coefficient at k replaced by
one of magnitude m2 is at least the cost with magnitude m1 when every other
coefficient, first, and the (recomputed) last are held fixed - provided the
tables are monotone: the fixed level-cost table in the magnitude, every
cost row in the clamped level, the cost rows pointwise in the context, and
the end-of-block bit-cost in the context.  With arbitrary tables a larger
magnitude can cost less (claim_C8_cex). -/
theorem claim_C8_amended (env : CostEnv) (ctx0 k : Nat) (v : Int)
    (res : VP8Residual)
    (hr1 : -32767 ≤ coeffAt res k) (hr2 : coeffAt res k ≤ 32767)
    (hv1 : -32767 ≤ v) (hv2 : v ≤ 32767)
    (hmag : (coeffAt res k).natAbs ≤ v.natAbs)
    (hF : ∀ a b, a ≤ b →
      env.VP8LevelFixedCosts a ≤ env.VP8LevelFixedCosts b)
    (hrowlvl : ∀ b c l1 l2, l1 ≤ l2 → res.cost b c l1 ≤ res.cost b c l2)
    (hrowctx : ∀ b c1 c2 l, c1 ≤ c2 → res.cost b c1 l ≤ res.cost b c2 l)
    (hterm : ∀ b c1 c2, c1 ≤ c2 →
      env.VP8BitCost 0 (res.prob b c1 0) ≤
        env.VP8BitCost 0 (res.prob b c2 0)) :
    GetResidualCostSSE2 env ctx0 res ≤
      GetResidualCostSSE2 env ctx0 (updateCoeff res k v) := by
  have habs : absLane (coeffAt res k) ≤
      absLane (coeffAt (updateCoeff res k v) k) := by
    by_cases hk : k < 16
    · rw [coeffAt_update_self res k v hk, absLane_eq _ hr1 hr2,
        absLane_eq _ hv1 hv2]
      exact hmag
    · rw [coeffAt_oob res k hk, coeffAt_oob (updateCoeff res k v) k hk]
  have hlvl : levelLane (coeffAt res k) ≤
      levelLane (coeffAt (updateCoeff res k v) k) := by
    by_cases hk : k < 16
    · rw [coeffAt_update_self res k v hk, levelLane_eq _ hr1 hr2,
        levelLane_eq _ hv1 hv2]
      omega
    · rw [coeffAt_oob res k hk, coeffAt_oob (updateCoeff res k v) k hk]
  have hctx : ctxLane (coeffAt res k) ≤
      ctxLane (coeffAt (updateCoeff res k v) k) := by
    by_cases hk : k < 16
    · rw [coeffAt_update_self res k v hk, ctxLane_eq _ hr1 hr2,
        ctxLane_eq _ hv1 hv2]
      omega
    · rw [coeffAt_oob res k hk, coeffAt_oob (updateCoeff res k v) k hk]
  have hmono := costTail_mono_coeff env res (updateCoeff res k v) k rfl rfl
    (fun m hm => (coeffAt_update_ne res k v m hm).symm)
    habs hlvl hctx hF hrowlvl hrowctx hterm
  unfold GetResidualCostSSE2 updateCoeff
  by_cases hl : res.last < 0
  · rw [if_pos hl, if_pos hl]
  · rw [if_neg hl, if_neg hl]
    exact Nat.add_le_add_left
      (hmono (res.last.toNat - res.first) res.first
        (res.cost res.first ctx0) (fun l1 l2 h => hrowlvl _ _ _ _ h)) _

/-- Witness for the amended C8: raising the single nonzero coefficient of a
concrete block from 3 to 5 under monotone tables does not lower the cost. -/
theorem claim_C8_witness :
    GetResidualCostSSE2 wEnv 0 wRes ≤
      GetResidualCostSSE2 wEnv 0 (updateCoeff wRes 0 5) :=
  claim_C8_amended wEnv 0 0 5 wRes (by decide) (by decide) (by decide)
    (by decide) (by decide)
    (fun a b h => h)
    (fun b c l1 l2 h => Nat.add_le_add_left h c)
    (fun b c1 c2 l h => Nat.add_le_add_right h l)
    (fun b c1 c2 h => Nat.add_le_add_left (Nat.add_le_add_right h 1) 0)

/-- C10: SetResidualCoeffsSSE2 writes only the last and coeffs fields of
the residual record, leaving first and the prob/cost table references
unchanged; and GetResidualCostSSE2, embedded as a pure function, has no
effect beyond its returned integer - in particular its result is fully
determined by the five fields of the residual record it reads. -/
theorem claim_C10 :
    ∀ (coeffs : Fin 16 → Int) (res : VP8Residual),
      (SetResidualCoeffsSSE2 coeffs res).first = res.first ∧
      (SetResidualCoeffsSSE2 coeffs res).prob = res.prob ∧
      (SetResidualCoeffsSSE2 coeffs res).cost = res.cost ∧
      (SetResidualCoeffsSSE2 coeffs res).coeffs = coeffs ∧
      (SetResidualCoeffsSSE2 coeffs res).last = setResidualLast coeffs ∧
      ∀ (env : CostEnv) (ctx0 : Nat) (r1 r2 : VP8Residual),
        r1.first = r2.first → r1.last = r2.last → r1.coeffs = r2.coeffs →
        r1.prob = r2.prob → r1.cost = r2.cost →
        GetResidualCostSSE2 env ctx0 r1 = GetResidualCostSSE2 env ctx0 r2 := by
  intro coeffs res
  refine ⟨rfl, rfl, rfl, rfl, rfl, ?_⟩
  intro env ctx0 r1 r2 h1 h2 h3 h4 h5
  have : r1 = r2 := by
    cases r1
    cases r2
    simp_all
  rw [this]

/-- Witness for C10 at a concrete coefficient array and residual. -/
theorem claim_C10_witness :
    (SetResidualCoeffsSSE2 (fun _ => 0) wRes).first = wRes.first :=
  (claim_C10 (fun _ => 0) wRes).1
